import Mathlib

/-
  Verification development for the RenChess core.

  The definitions below are a shallow embedding of the Python sources:
    * src/user.py        — spaced-repetition scheduler (User.add_activity,
                           User.get_review_items)
    * src/RenChess.py    — Clock model (Timer.update_base)
    * src/chessGame.py   — coordinate translator, move-entry state machine,
                           castling side-effect resolver
    * src/chessPuzzle.py — puzzle verification engine (Puzzle.run)

  Machine integers are modelled as Int/Nat (Python integers are unbounded, so
  no wrap-around modelling is needed).  Fallible code (KeyError / IndexError /
  TypeError) is modelled with Option/Except.  External collaborators (the
  python-chess rules oracle, the GUI) enter as parameters.
-/

namespace User

/-- A configparser section body: an association list from option name to the
parsed `(lastSeenDay, stage)` pair.  `User.add_activity` stores the value as
the string `str(days) + " " + str(stage)` and `User.get_review_items` parses
it back with `split(" ")`/`int`, which round-trips exactly, so the value is
modelled as the parsed pair of integers directly. -/
abbrev SectionMap := List (String × (Int × Int))

/-- The record store `self.record`: an association list of configparser
sections.  Section names and option keys are unique in a configparser, so an
association-list model with first-match lookup is faithful. -/
abbrev Store := List (String × SectionMap)

/-- Set a key in an association list: replace the first binding if the key is
present, append a new binding otherwise.  This is Python dict item assignment
`m[k] = v`. -/
def setKey {β : Type} (m : List (String × β)) (k : String) (v : β) :
    List (String × β) :=
  match m with
  | [] => [(k, v)]
  | (k', v') :: t => if k' = k then (k, v) :: t else (k', v') :: setKey t k v

/-- Remove a key from an association list.  Python `dict.pop(k)` removes the
unique binding of `k`; since configparser keys are unique, removing every
binding of `k` is the same operation on every store Python can build. -/
def delKey {β : Type} (m : List (String × β)) (k : String) :
    List (String × β) :=
  m.filter (fun p => !(p.1 == k))

/-- Lookup of `self.record[sec][key]` as a `(lastSeenDay, stage)` pair. -/
def lookupR (st : Store) (sec key : String) : Option (Int × Int) :=
  match List.lookup sec st with
  | none => none
  | some m => List.lookup key m

/-- `User.add_activity` (src/user.py lines 15-29), with the day counter
`days = int((time.time() - 1609488000) / 86400)` passed in as the parameter
`days` (time is an external input).
  * section missing: `self.record[puzzle_set] = {id_str: str(days) + " 0"}`
  * key missing: `self.record[puzzle_set][id_str] = str(days) + " 0"`
  * otherwise: `new_stage = old_stage + 1 if result == "S" else
    max(old_stage - 1, 0)`; if `new_stage < 7` rewrite the entry, else pop it.
-/
def add_activity (st : Store) (puzzle_set id_str result : String)
    (days : Int) : Store :=
  match List.lookup puzzle_set st with
  | none => setKey st puzzle_set [(id_str, (days, 0))]
  | some m =>
    match List.lookup id_str m with
    | none => setKey st puzzle_set (setKey m id_str (days, 0))
    | some (_, old_stage) =>
      let new_stage := if result = "S" then old_stage + 1
                       else max (old_stage - 1) 0
      if new_stage < 7 then
        setKey st puzzle_set (setKey m id_str (days, new_stage))
      else
        setKey st puzzle_set (delKey m id_str)

/-- The data-model invariant: every stored stage lies in `[0, 6]`. -/
def stagesOK (st : Store) : Prop :=
  ∀ s ∈ st, ∀ kv ∈ s.2, 0 ≤ kv.2.2 ∧ kv.2.2 ≤ 6

instance stagesOK.dec (st : Store) : Decidable (stagesOK st) := by
  unfold stagesOK; infer_instance

/-- The dict `memory_curve = {0: 1, 1: 2, 2: 3, 3: 5, 4: 8, 5: 13, 6: 21}`
from `User.get_review_items`.  Indexing a Python dict at a missing key raises
KeyError, modelled by `none`. -/
def memory_curve (stage : Int) : Option Int :=
  if stage = 0 then some 1
  else if stage = 1 then some 2
  else if stage = 2 then some 3
  else if stage = 3 then some 5
  else if stage = 4 then some 8
  else if stage = 5 then some 13
  else if stage = 6 then some 21
  else none

/-- One heap element `(idx, section, item)` as pushed by
`User.get_review_items`. -/
structure HE where
  idx : Int
  sec : String
  item : String

/-- Heap ordering keyed on the priority (the first tuple component, which is
what the replacement test `idx > review_items[0][0]` compares).  Among equal
priorities Python orders tuples by the string components; every property
verified below is independent of the order among equal priorities. -/
def heLe (a b : HE) : Prop := a.idx ≤ b.idx

instance heLe.dec : DecidableRel heLe := fun a b => by
  unfold heLe; infer_instance

instance heLe.total : IsTotal HE heLe :=
  ⟨fun a b => Int.le_total a.idx b.idx⟩

instance heLe.trans : IsTrans HE heLe :=
  ⟨fun _ _ _ hab hbc => le_trans hab hbc⟩

/-- The nested iteration `for section in self.record: for item in
self.record[section]:` flattened into the visiting order of the loop.  (The
configparser also yields an always-empty DEFAULT pseudo-section, which
contributes no items.) -/
def flatten (st : Store) : List (String × String × Int × Int) :=
  st.flatMap (fun s => s.2.map (fun kv => (s.1, kv.1, kv.2.1, kv.2.2)))

/-- Per-record priority computation of the loop body:
`idx = -1000 * memory_curve[stage] + (today - days)`; `none` when the dict
lookup `memory_curve[stage]` raises KeyError. -/
def mkEntries (today : Int) :
    List (String × String × Int × Int) → Option (List HE)
  | [] => some []
  | (sec, item, days, stage) :: rest =>
    match memory_curve stage with
    | none => none
    | some mc =>
      (mkEntries today rest).map
        (fun es => ⟨-1000 * mc + (today - days), sec, item⟩ :: es)

/-- One iteration of the bounded top-K loop body of `User.get_review_items`:
`heapq` is modelled by its min-heap contract as a list sorted ascending by
priority (the head is the heap minimum `review_items[0]`).
  * `len(review_items) < max_item`: `heapq.heappush`
  * otherwise, if the heap is empty, `review_items[0][0]` raises IndexError
    (`none`)
  * `idx > review_items[0][0]`: `heapq.heapreplace` (pop the minimum, insert
    the new element)
  * else: the record is skipped. -/
def heap_step (K : Int) (h : List HE) (e : HE) : Option (List HE) :=
  if (h.length : Int) < K then some (List.orderedInsert heLe e h)
  else
    match h with
    | [] => none
    | m :: t =>
      if m.idx < e.idx then some (List.orderedInsert heLe e t)
      else some (m :: t)

/-- The `for` loop of `User.get_review_items` over the flattened records. -/
def runHeap (K : Int) : List HE → List HE → Option (List HE)
  | [], h => some h
  | e :: rest, h =>
    match heap_step K h e with
    | none => none
    | some h' => runHeap K rest h'

/-- `User.get_review_items` (src/user.py lines 39-55), with `today` and
`max_item = int(self.config["User"]["max_review_items"])` as parameters.  The
final `[heapq.heappop(review_items)[1:] for _ in range(len(review_items))]`
drains the heap in ascending priority order keeping `(section, item)`, and
`[::-1]` reverses, so on the sorted-list heap model it is the reversed list of
payloads. -/
def get_review_items (st : Store) (today K : Int) :
    Option (List (String × String)) :=
  match mkEntries today (flatten st) with
  | none => none
  | some es =>
    match runHeap K es [] with
    | none => none
    | some sel => some ((sel.map (fun e => (e.sec, e.item))).reverse)

end User

namespace RenChessClock

/-- The `Timer` class of src/RenChess.py (constructor lines 55-69): all time
quantities in milliseconds, `init_base_time` recorded at construction. -/
structure Timer where
  tc_type : String
  base : Int
  inc : Int
  period_moves : Int
  elapse : Int
  init_base_time : Int

/-- `Timer.update_base` (src/RenChess.py lines 72-88): dispatch on
`tc_type` (`delay` / `fischer` / `timepermove`, any other string — in
particular classical time control — falls to the `else` branch), then
`self.base = max(0, self.base)` and `self.elapse = 0`. -/
def Timer.update_base (t : Timer) : Timer :=
  let b :=
    if t.tc_type = "delay" then t.base + min 0 (t.inc - t.elapse)
    else if t.tc_type = "fischer" then t.base + t.inc - t.elapse
    else if t.tc_type = "timepermove" then t.init_base_time
    else t.base - t.elapse
  { t with base := max 0 b, elapse := 0 }

end RenChessClock

namespace Game

/-- `chess.square_rank(s)` from python-chess: `s >> 3`. -/
def square_rank (s : Nat) : Nat := s / 8

/-- `chess.square_file(s)` from python-chess: `s & 7`. -/
def square_file (s : Nat) : Nat := s % 8

/-- `chess.square(file_index, rank_index)` from python-chess:
`rank_index * 8 + file_index`. -/
def chess_square (file_index rank_index : Nat) : Nat :=
  rank_index * 8 + file_index

/-- `Game.get_row` (src/chessGame.py lines 43-54): PySimpleGUI rows run 0 at
the top to 7 at the bottom, so `7 - chess.square_rank(s)`. -/
def get_row (s : Nat) : Nat := 7 - square_rank s

/-- `Game.get_col` (src/chessGame.py lines 56-58): `chess.square_file(s)`. -/
def get_col (s : Nat) : Nat := square_file s

/-- `Game.relative_row` (src/chessGame.py lines 60-69):
`7 - self.get_row(s) if stm else self.get_row(s)` (`stm` true means White to
move). -/
def relative_row (s : Nat) (stm : Bool) : Nat :=
  if stm then 7 - get_row s else get_row s

/-- `Game.update_rook` (src/chessGame.py lines 89-116): the fixed rook
source/destination/piece triple resolved from the king move in UCI text.
Square constants are python-chess indices (`chess.A1 = 0 … chess.H8 = 63`)
and piece codes are the PySimpleGUI codes from src/globals.py
(`ROOKW = 10`, `ROOKB = 4`):
`H1 = 7, F1 = 5, A1 = 0, D1 = 3, H8 = 63, F8 = 61, A8 = 56, D8 = 59`.
On any other string the if/elif chain assigns none of `fr`, `to`, `pc` and
the following lines raise NameError, modelled by `none`. -/
def update_rook (move : String) : Option (Nat × Nat × Nat) :=
  if move = "e1g1" then some (7, 5, 10)
  else if move = "e1c1" then some (0, 3, 10)
  else if move = "e8g8" then some (63, 61, 4)
  else if move = "e8c8" then some (56, 59, 4)
  else none

/-- The castling dispatch inside `Game.update_board` (src/chessGame.py lines
251-253): when `self.board.is_castling(move)` holds, the code executes
`self.update_rook(self.ui.window, str(move))`.  `update_rook` is defined as
`def update_rook(self, move)` (line 89), so the bound-method call receives
two positional arguments where one is accepted and Python raises
`TypeError: update_rook() takes 2 positional arguments but 3 were given`
before any rook relocation can happen; the error is modelled as
`Except.error`.  On a non-castling move no rook relocation is emitted. -/
def update_board_rook_call (is_castling : Bool) (move : String) :
    Except String (Option (Nat × Nat × Nat)) :=
  if is_castling then
    Except.error "TypeError: update_rook() takes 2 positional arguments but 3 were given"
  else
    Except.ok none

/-- A candidate move as built by `Game.get_user_input`:
`chess.Move(fr_sq, to_sq)`.  The `promo` field mirrors the `promotion`
argument of `chess.Move`; the only branch of the embedded source that would
set it raises TypeError before constructing a move (see
`get_user_input_aux`), so every constructed candidate carries `none`. -/
structure MoveCand where
  fr_sq : Nat
  to_sq : Nat
  promo : Option Nat

/-- Presentation side effects of the move-entry loop: highlighting the
selected from-square (`change_square_color`) and restoring a square's base
color (`button_square.Update(button_color=...)`). -/
inductive Eff where
  | highlight : Nat → Nat → Eff
  | restore : Nat → Nat → Eff

/-- Events read from `window.Read` inside `Game.get_user_input`: a board
square button (a `(row, col)` tuple), the window close button
(`button is None`), or any other button/timeout event, which the
`type(button) is tuple` guard skips. -/
inductive Ev where
  | click : Nat → Nat → Ev
  | quit : Ev
  | other : Ev

/-- The internal state of the move-entry loop: `move_state = 0` (idle), or
`move_state = 1` with the recorded `move_from = (fr_row, fr_col)` and
`moved_piece = self.board.piece_type_at(chess.square(fr_col, 7 - fr_row))`. -/
inductive SelState where
  | idle : SelState
  | sel : Nat → Nat → Option Nat → SelState

/-- The loop body of `Game.get_user_input` (src/chessGame.py lines 165-237)
over a finite event stream.  External inputs are parameters: `stm` is
`self.board.turn`, `pieceAt` is the rules-engine oracle
`self.board.piece_type_at` (`chess.PAWN = 1`), and `legal` decides membership
in `self.board.legal_moves`.  The first component of the result is the
outcome handed back to the caller: `Except.ok (some move)` for a legal move,
`Except.ok none` when the stream ends or the window is closed.  When the
destination square lies on the mover's relative rank 7 (`RANK_8 = 7`) and
the recorded moved piece is a pawn, line 219 executes
`pyc_promo, psg_promo = self.get_promo_piece(user_move, self.board.turn,
True)`, but `Game.get_promo_piece` (line 142) returns the single value
`pyc_promo`: unpacking it raises TypeError before any move is built or
checked for legality, modelled as `Except.error`.  The second component is
the emitted square-color side effects.  The board itself is only read, never
written, by this loop. -/
def get_user_input_aux (stm : Bool) (pieceAt : Nat → Option Nat)
    (legal : MoveCand → Bool) :
    List Ev → SelState → Except String (Option MoveCand) × List Eff
  | [], _ => (Except.ok none, [])
  | Ev.quit :: _, _ => (Except.ok none, [])
  | Ev.other :: evs, st => get_user_input_aux stm pieceAt legal evs st
  | Ev.click r c :: evs, SelState.idle =>
    let res := get_user_input_aux stm pieceAt legal evs
      (SelState.sel r c (pieceAt (chess_square c (7 - r))))
    (res.1, Eff.highlight r c :: res.2)
  | Ev.click r c :: evs, SelState.sel fr_row fr_col moved_piece =>
    if r = fr_row ∧ c = fr_col then
      let res := get_user_input_aux stm pieceAt legal evs SelState.idle
      (res.1, Eff.restore r c :: res.2)
    else
      let fr_sq := chess_square fr_col (7 - fr_row)
      let to_sq := chess_square c (7 - r)
      if relative_row to_sq stm = 7 ∧ moved_piece = some 1 then
        (Except.error "TypeError: cannot unpack non-iterable int object", [])
      else
        let user_move : MoveCand := ⟨fr_sq, to_sq, none⟩
        if legal user_move then (Except.ok (some user_move), [])
        else
          let res := get_user_input_aux stm pieceAt legal evs SelState.idle
          (res.1, Eff.restore fr_row fr_col :: res.2)

/-- `Game.get_user_input`: the loop starts with `move_state = 0`. -/
def get_user_input (stm : Bool) (pieceAt : Nat → Option Nat)
    (legal : MoveCand → Bool) (evs : List Ev) :
    Except String (Option MoveCand) × List Eff :=
  get_user_input_aux stm pieceAt legal evs SelState.idle

end Game

namespace Puzzle

/-- The inner `while True` loop of `Puzzle.run` (src/chessPuzzle.py lines
113-130) for one human ply, over the stream of canonical (SAN) notations of
the moves the human submits: each attempt is compared to the expected SAN; a
mismatch increments `performance[1]` and retries the same expected move, a
match ends the loop.  Returns the remaining attempt stream and the number of
mismatches consumed at this ply; `none` when the stream is exhausted before a
match (the session never finishes the ply). -/
def consume (expected : String) : List String → Option (List String × Nat)
  | [] => none
  | a :: rest =>
    if a = expected then some (rest, 0)
    else (consume expected rest).map (fun p => (p.1, p.2 + 1))

/-- The rank table of `Puzzle.run` (src/chessPuzzle.py lines 132-134):
`ranks = ["S", "A", "B", "C"]; ranks[3 if wrong > 3 else wrong]`.  The index
is at most 3, so the `getD` default is never used. -/
def rank_of (wrong : Nat) : String :=
  List.getD ["S", "A", "B", "C"] (if 3 < wrong then 3 else wrong) ""

/-- The plies of the script that belong to the human player, given whose turn
the first ply is (`play_side` starts at White and the human player side is
White, so the first ply is the human's; sides alternate each ply). -/
def humanMoves : Bool → List String → List String
  | _, [] => []
  | humanTurn, e :: rest =>
    if humanTurn then e :: humanMoves (!humanTurn) rest
    else humanMoves (!humanTurn) rest

/-- The main loop of `Puzzle.run` (src/chessPuzzle.py lines 102-131) over the
script of expected SANs (`self.game.mainline_moves()` rendered through
`self.board.san`), for a session in which the app is never exited.  Returns
`(goodCount, wrongCount, committed, remaining)` where `committed` is the
sequence of moves pushed to the board by `update_board` (scripted moves, and
human moves only on a match — a mismatch calls
`update_board(move, clear_move=True)`, which returns before `board.push`),
and `remaining` is the unread part of the human attempt stream.  `none` when
the attempt stream runs out mid-ply. -/
def puzzle_run : Bool → List String → List String →
    Option (Nat × Nat × List String × List String)
  | _, [], attempts => some (0, 0, [], attempts)
  | humanTurn, expected :: rest, attempts =>
    if humanTurn then
      match consume expected attempts with
      | none => none
      | some (rem, w) =>
        (puzzle_run (!humanTurn) rest rem).map
          (fun r => (r.1 + 1, w + r.2.1, expected :: r.2.2.1, r.2.2.2))
    else
      (puzzle_run (!humanTurn) rest attempts).map
        (fun r => (r.1, r.2.1, expected :: r.2.2.1, r.2.2.2))

/-- A completed puzzle session: the accumulated `performance = [good, wrong]`
counters, the moves committed to the board, and the final rank computed when
the script is exhausted (src/chessPuzzle.py lines 132-134). -/
structure SessionResult where
  good : Nat
  wrong : Nat
  committed : List String
  rank : String
  deriving DecidableEq

/-- `Puzzle.run` end to end: run the script, then compute the rank from the
accumulated `wrongCount`. -/
def session (humanFirst : Bool) (script attempts : List String) :
    Option SessionResult :=
  (puzzle_run humanFirst script attempts).map
    (fun r => ⟨r.1, r.2.1, r.2.2.1, rank_of r.2.1⟩)

end Puzzle

namespace User

/-- Invariant of the bounded top-K selection loop: the heap is sorted
ascending by priority, holds at most `K` elements all of which were visited,
and any visited element not in the heap was dropped only when the heap was
full of elements of priority at least its own. -/
def HeapInv (K : Int) (processed h : List HE) : Prop :=
  List.Sorted heLe h ∧ (h.length : Int) ≤ K ∧
  (∀ f ∈ h, f ∈ processed) ∧
  (∀ e ∈ processed, e ∉ h → (h.length : Int) = K ∧ ∀ f ∈ h, e.idx ≤ f.idx)

end User

section AssocLemmas

theorem lookup_setKey_self {β : Type} (m : List (String × β)) (k : String)
    (v : β) : List.lookup k (User.setKey m k v) = some v := by
  induction m with
  | nil => simp [User.setKey, List.lookup]
  | cons p t ih =>
    obtain ⟨k', v'⟩ := p
    by_cases h : k' = k
    · simp [User.setKey, h, List.lookup]
    · simp only [User.setKey, if_neg h, List.lookup]
      have : (k == k') = false := by
        simp [beq_iff_eq]; exact fun hk => h hk.symm
      simp [this, ih]

theorem lookup_setKey_ne {β : Type} (m : List (String × β)) (k k' : String)
    (v : β) (h : k' ≠ k) :
    List.lookup k' (User.setKey m k v) = List.lookup k' m := by
  induction m with
  | nil => simp [User.setKey, List.lookup_cons, beq_false_of_ne h]
  | cons p t ih =>
    obtain ⟨k₀, v₀⟩ := p
    by_cases hk : k₀ = k
    · subst hk
      simp [User.setKey, List.lookup_cons, beq_false_of_ne h]
    · simp [User.setKey, if_neg hk, List.lookup_cons, ih]

theorem lookup_delKey_self {β : Type} (m : List (String × β)) (k : String) :
    List.lookup k (User.delKey m k) = none := by
  induction m with
  | nil => simp [User.delKey, List.lookup]
  | cons p t ih =>
    obtain ⟨k₀, v₀⟩ := p
    by_cases hk : k₀ = k
    · simp [User.delKey, List.filter, hk, beq_iff_eq] at ih ⊢
      exact ih
    · have h1 : (k₀ == k) = false := by simp [beq_iff_eq, hk]
      have h2 : (k == k₀) = false := by
        simp [beq_iff_eq]; exact fun hk2 => hk hk2.symm
      simp [User.delKey, List.filter, h1, List.lookup, h2] at ih ⊢
      exact ih

theorem lookup_mem {β : Type} {m : List (String × β)} {k : String} {v : β}
    (h : List.lookup k m = some v) : (k, v) ∈ m := by
  induction m with
  | nil => simp [List.lookup] at h
  | cons p t ih =>
    obtain ⟨k₀, v₀⟩ := p
    by_cases hk : k = k₀
    · subst hk
      simp [List.lookup] at h
      simp [h]
    · have : (k == k₀) = false := by simp [beq_iff_eq, hk]
      simp [List.lookup, this] at h
      exact List.mem_cons_of_mem _ (ih h)

theorem mem_setKey {β : Type} {m : List (String × β)} {k : String} {v : β}
    {x : String × β} (h : x ∈ User.setKey m k v) : x ∈ m ∨ x = (k, v) := by
  induction m with
  | nil => simp [User.setKey] at h; simp [h]
  | cons p t ih =>
    obtain ⟨k₀, v₀⟩ := p
    by_cases hk : k₀ = k
    · simp [User.setKey, hk] at h
      rcases h with h | h
      · right; simp [h]
      · left; exact List.mem_cons_of_mem _ h
    · simp [User.setKey, if_neg hk] at h
      rcases h with h | h
      · left; simp [h]
      · rcases ih h with h' | h'
        · left; exact List.mem_cons_of_mem _ h'
        · right; exact h'

theorem mem_delKey {β : Type} {m : List (String × β)} {k : String}
    {x : String × β} (h : x ∈ User.delKey m k) : x ∈ m :=
  (List.mem_filter.mp h).1

end AssocLemmas

section AddActivityLemmas

/-- A successful two-level record lookup decomposes into a section lookup and
an option lookup. -/
theorem lookupR_some {st : User.Store} {sec id : String} {v : Int × Int}
    (h : User.lookupR st sec id = some v) :
    ∃ m, List.lookup sec st = some m ∧ List.lookup id m = some v := by
  rcases hs : List.lookup sec st with _ | m
  · simp [User.lookupR, hs] at h
  · simp only [User.lookupR, hs] at h
    exact ⟨m, rfl, h⟩

/-- Unfolding `add_activity` on a missing section. -/
theorem add_activity_new_sec {st : User.Store} {sec : String}
    (id res : String) (today : Int) (hsec : List.lookup sec st = none) :
    User.add_activity st sec id res today =
      User.setKey st sec [(id, (today, 0))] := by
  simp only [User.add_activity, hsec]

/-- Unfolding `add_activity` on an existing section and a missing key. -/
theorem add_activity_new_key {st : User.Store} {sec : String}
    {m : User.SectionMap} (id res : String) (today : Int)
    (hsec : List.lookup sec st = some m)
    (hid : List.lookup id m = none) :
    User.add_activity st sec id res today =
      User.setKey st sec (User.setKey m id (today, 0)) := by
  simp only [User.add_activity, hsec, hid]

/-- Unfolding `add_activity` on an existing record. -/
theorem add_activity_update {st : User.Store} {sec id : String}
    {m : User.SectionMap} (res : String) (today : Int) {d stg : Int}
    (hsec : List.lookup sec st = some m)
    (hid : List.lookup id m = some (d, stg)) :
    User.add_activity st sec id res today =
      (if (if res = "S" then stg + 1 else max (stg - 1) 0) < 7 then
        User.setKey st sec (User.setKey m id
          (today, if res = "S" then stg + 1 else max (stg - 1) 0))
      else User.setKey st sec (User.delKey m id)) := by
  simp only [User.add_activity, hsec, hid]

/-- One S-rank application to an existing record advances the stage and
deletes the record when the new stage reaches 7. -/
theorem add_activity_S_step (st : User.Store) (sec id : String)
    (today d stg : Int) (h : User.lookupR st sec id = some (d, stg)) :
    User.lookupR (User.add_activity st sec id "S" today) sec id =
      if stg + 1 < 7 then some (today, stg + 1) else none := by
  obtain ⟨m, hsec, hid⟩ := lookupR_some h
  rw [add_activity_update "S" today hsec hid]
  have hS : (if ("S" : String) = "S" then stg + 1 else max (stg - 1) 0) =
      stg + 1 := if_pos rfl
  rw [hS]
  by_cases h7 : stg + 1 < 7
  · rw [if_pos h7, if_pos h7]
    simp [User.lookupR, lookup_setKey_self]
  · rw [if_neg h7, if_neg h7]
    simp [User.lookupR, lookup_setKey_self, lookup_delKey_self]

end AddActivityLemmas

/-- C1: for an existing ReviewRecord with stage in [0,6], `add_activity`
computes the next stage as `stage + 1` for rank S and `max (stage - 1) 0`
otherwise; if the next stage is below 7 the record is rewritten with
`lastSeenDay = today` and the new stage, else it is deleted; and seven
consecutive S-rank applications to a stage-0 record delete it on the
seventh. -/
theorem c1_add_activity_stage_transition (st : User.Store)
    (sec id res : String) (today d stg : Int)
    (hlook : User.lookupR st sec id = some (d, stg))
    (h0 : 0 ≤ stg) (h6 : stg ≤ 6) :
    ((if res = "S" then stg + 1 else max (stg - 1) 0) < 7 →
      User.lookupR (User.add_activity st sec id res today) sec id =
        some (today, if res = "S" then stg + 1 else max (stg - 1) 0)) ∧
    (7 ≤ (if res = "S" then stg + 1 else max (stg - 1) 0) →
      User.lookupR (User.add_activity st sec id res today) sec id = none) ∧
    (stg = 0 →
      User.lookupR ((fun s => User.add_activity s sec id "S" today)^[7] st)
        sec id = none) := by
  obtain ⟨m, hsec, hid⟩ := lookupR_some hlook
  refine ⟨?_, ?_, ?_⟩
  · intro hlt
    rw [add_activity_update res today hsec hid, if_pos hlt]
    simp [User.lookupR, lookup_setKey_self]
  · intro hge
    rw [add_activity_update res today hsec hid, if_neg (by omega)]
    simp [User.lookupR, lookup_setKey_self, lookup_delKey_self]
  · intro hstg
    subst hstg
    have step := add_activity_S_step
    simp only [Function.iterate_succ_apply', Function.iterate_zero_apply]
    have h1 := step st sec id today d 0 hlook
    rw [if_pos (by omega)] at h1
    have h2 := step _ sec id today today 1 h1
    rw [if_pos (by omega)] at h2
    have h3 := step _ sec id today today 2 h2
    rw [if_pos (by omega)] at h3
    have h4 := step _ sec id today today 3 h3
    rw [if_pos (by omega)] at h4
    have h5 := step _ sec id today today 4 h4
    rw [if_pos (by omega)] at h5
    have h6' := step _ sec id today today 5 h5
    rw [if_pos (by omega)] at h6'
    have h7 := step _ sec id today today 6 h6'
    rw [if_neg (by omega)] at h7
    exact h7

/-- Witness for C1: a concrete store holding stage 2, updated with rank S. -/
theorem c1_witness :
    (User.lookupR [("P", [("1", (3, 2))])] "P" "1" = some (3, 2) ∧
      (0 : Int) ≤ 2 ∧ (2 : Int) ≤ 6) ∧
    ((if "S" = "S" then (2 : Int) + 1 else max (2 - 1) 0) < 7 →
      User.lookupR (User.add_activity [("P", [("1", (3, 2))])] "P" "1" "S" 9)
        "P" "1" =
        some (9, if "S" = "S" then (2 : Int) + 1 else max (2 - 1) 0)) := by
  refine ⟨⟨by decide, by decide, by decide⟩, ?_⟩
  exact (c1_add_activity_stage_transition [("P", [("1", (3, 2))])] "P" "1" "S"
    9 3 2 (by decide) (by decide) (by decide)).1

/-- C9: `add_activity` preserves the invariant that every stored stage lies
in [0,6]. -/
theorem c9_add_activity_preserves_stage_bound (st : User.Store)
    (sec id res : String) (today : Int) (hOK : User.stagesOK st) :
    User.stagesOK (User.add_activity st sec id res today) := by
  intro s hs kv hkv
  rcases hsec : List.lookup sec st with _ | m
  · rw [add_activity_new_sec id res today hsec] at hs
    rcases mem_setKey hs with h | h
    · exact hOK s h kv hkv
    · subst h
      simp at hkv
      simp [hkv]
  · have hmem : (sec, m) ∈ st := lookup_mem hsec
    rcases hid : List.lookup id m with _ | dv
    · rw [add_activity_new_key id res today hsec hid] at hs
      rcases mem_setKey hs with h | h
      · exact hOK s h kv hkv
      · subst h
        rcases mem_setKey hkv with h' | h'
        · exact hOK _ hmem kv h'
        · simp [h']
    · obtain ⟨d, old⟩ := dv
      rw [add_activity_update res today hsec hid] at hs
      have hold : 0 ≤ old ∧ old ≤ 6 :=
        hOK _ hmem (id, (d, old)) (lookup_mem hid)
      by_cases h7 : (if res = "S" then old + 1 else max (old - 1) 0) < 7
      · rw [if_pos h7] at hs
        rcases mem_setKey hs with h | h
        · exact hOK s h kv hkv
        · subst h
          rcases mem_setKey hkv with h' | h'
          · exact hOK _ hmem kv h'
          · subst h'
            by_cases hres : res = "S" <;>
              simp [hres] at h7 ⊢ <;> omega
      · rw [if_neg h7] at hs
        rcases mem_setKey hs with h | h
        · exact hOK s h kv hkv
        · subst h
          exact hOK _ hmem kv (mem_delKey hkv)

/-- Witness for C9: a concrete in-bounds store stays in bounds. -/
theorem c9_witness :
    User.stagesOK [("P", [("1", (3, 2)), ("2", (4, 6))])] ∧
    User.stagesOK
      (User.add_activity [("P", [("1", (3, 2)), ("2", (4, 6))])]
        "P" "2" "S" 9) :=
  ⟨by decide,
    c9_add_activity_preserves_stage_bound
      [("P", [("1", (3, 2)), ("2", (4, 6))])] "P" "2" "S" 9 (by decide)⟩

/-- C10: when no record exists, `add_activity` creates it at stage 0 with
`lastSeenDay = today` regardless of the result rank, so retiring a never-seen
puzzle takes 8 attempts: 7 S-rank applications leave it at stage 6 and the
8th deletes it. -/
theorem c10_add_activity_first_attempt (st : User.Store)
    (sec id res : String) (today : Int)
    (hnone : User.lookupR st sec id = none) :
    User.lookupR (User.add_activity st sec id res today) sec id =
      some (today, 0) ∧
    User.lookupR ((fun s => User.add_activity s sec id "S" today)^[7] st)
      sec id = some (today, 6) ∧
    User.lookupR ((fun s => User.add_activity s sec id "S" today)^[8] st)
      sec id = none := by
  have hcreate : ∀ res' : String,
      User.lookupR (User.add_activity st sec id res' today) sec id =
        some (today, 0) := by
    intro res'
    rcases hsec : List.lookup sec st with _ | m
    · rw [add_activity_new_sec id res' today hsec]
      simp [User.lookupR, lookup_setKey_self]
    · have hid : List.lookup id m = none := by
        simp only [User.lookupR, hsec] at hnone
        exact hnone
      rw [add_activity_new_key id res' today hsec hid]
      simp [User.lookupR, lookup_setKey_self]
  refine ⟨hcreate res, ?_, ?_⟩
  all_goals
    simp only [Function.iterate_succ_apply', Function.iterate_zero_apply]
  · have h1 := hcreate "S"
    have h2 := add_activity_S_step _ sec id today today 0 h1
    rw [if_pos (by omega)] at h2
    have h3 := add_activity_S_step _ sec id today today 1 h2
    rw [if_pos (by omega)] at h3
    have h4 := add_activity_S_step _ sec id today today 2 h3
    rw [if_pos (by omega)] at h4
    have h5 := add_activity_S_step _ sec id today today 3 h4
    rw [if_pos (by omega)] at h5
    have h6 := add_activity_S_step _ sec id today today 4 h5
    rw [if_pos (by omega)] at h6
    have h7 := add_activity_S_step _ sec id today today 5 h6
    rw [if_pos (by omega)] at h7
    exact h7
  · have h1 := hcreate "S"
    have h2 := add_activity_S_step _ sec id today today 0 h1
    rw [if_pos (by omega)] at h2
    have h3 := add_activity_S_step _ sec id today today 1 h2
    rw [if_pos (by omega)] at h3
    have h4 := add_activity_S_step _ sec id today today 2 h3
    rw [if_pos (by omega)] at h4
    have h5 := add_activity_S_step _ sec id today today 3 h4
    rw [if_pos (by omega)] at h5
    have h6 := add_activity_S_step _ sec id today today 4 h5
    rw [if_pos (by omega)] at h6
    have h7 := add_activity_S_step _ sec id today today 5 h6
    rw [if_pos (by omega)] at h7
    have h8 := add_activity_S_step _ sec id today today 6 h7
    rw [if_neg (by omega)] at h8
    exact h8

/-- Witness for C10: creating a record in an empty store. -/
theorem c10_witness :
    User.lookupR [] "P" "1" = none ∧
    User.lookupR (User.add_activity [] "P" "1" "S" 9) "P" "1" =
      some (9, 0) :=
  ⟨by decide, (c10_add_activity_first_attempt [] "P" "1" "S" 9 (by decide)).1⟩

/-- C3: one `update_base` call sets `base` to `max 0 b` where `b` is
`base + inc - elapse` under fischer, `base + min 0 (inc - elapse)` under
delay, the initial base time under timepermove and `base - elapse` under
classical (the `else` branch); `elapse` is reset to 0 and the resulting base
is never negative; and the concrete fischer instance
`base = 10000, inc = 2000, elapse = 3000` yields `base = 9000`. -/
theorem c3_timer_update_base_policies :
    (∀ t : RenChessClock.Timer,
      t.update_base.elapse = 0 ∧
      0 ≤ t.update_base.base ∧
      (t.tc_type = "fischer" →
        t.update_base.base = max 0 (t.base + t.inc - t.elapse)) ∧
      (t.tc_type = "delay" →
        t.update_base.base = max 0 (t.base + min 0 (t.inc - t.elapse))) ∧
      (t.tc_type = "timepermove" →
        t.update_base.base = max 0 t.init_base_time) ∧
      (t.tc_type = "classical" →
        t.update_base.base = max 0 (t.base - t.elapse))) ∧
    (RenChessClock.Timer.update_base
        ⟨"fischer", 10000, 2000, 40, 3000, 10000⟩).base = 9000 := by
  constructor
  · intro t
    refine ⟨rfl, le_max_left 0 _, ?_, ?_, ?_, ?_⟩ <;>
      intro h <;> simp [RenChessClock.Timer.update_base, h]
  · decide

/-- Witness for C3: the four policy branches evaluated at concrete timers. -/
theorem c3_witness :
    (RenChessClock.Timer.update_base
        ⟨"delay", 5000, 2000, 40, 3000, 5000⟩).base =
      max 0 (5000 + min 0 (2000 - 3000)) ∧
    (RenChessClock.Timer.update_base
        ⟨"timepermove", 100, 0, 40, 900, 60000⟩).base = max 0 60000 ∧
    (RenChessClock.Timer.update_base
        ⟨"classical", 5000, 0, 40, 7000, 5000⟩).base = max 0 (5000 - 7000) :=
  ⟨(c3_timer_update_base_policies.1
      ⟨"delay", 5000, 2000, 40, 3000, 5000⟩).2.2.2.1 rfl,
   (c3_timer_update_base_policies.1
      ⟨"timepermove", 100, 0, 40, 900, 60000⟩).2.2.2.2.1 rfl,
   (c3_timer_update_base_policies.1
      ⟨"classical", 5000, 0, 40, 7000, 5000⟩).2.2.2.2.2 rfl⟩

/-- C5: converting a square to UI coordinates with `get_row`/`get_col` and
reconstructing it with `chess.square(col, 7 - row)` (as `get_user_input`
does) is the identity on every square. -/
theorem c5_square_ui_roundtrip (s : Nat) (hs : s < 64) :
    Game.chess_square (Game.get_col s) (7 - Game.get_row s) = s := by
  simp only [Game.chess_square, Game.get_col, Game.get_row,
    Game.square_rank, Game.square_file]
  omega

/-- Witness for C5: the round trip at square 42 (c6). -/
theorem c5_witness :
    42 < 64 ∧
    Game.chess_square (Game.get_col 42) (7 - Game.get_row 42) = 42 :=
  ⟨by decide, c5_square_ui_roundtrip 42 (by decide)⟩

/-- C7: from the idle state, clicking a square and then the same square again
highlights and then restores that square, emits no move, and leaves the
move-entry machine exactly as if the two clicks had never happened (the board
is never written by `get_user_input`).  The same-square test at
src/chessGame.py line 196 fires before the promotion branch and before the
legality check, so the cancellation is unconditional. -/
theorem c7_same_square_cancel (stm : Bool) (pieceAt : Nat → Option Nat)
    (legal : Game.MoveCand → Bool) (r c : Nat) (evs : List Game.Ev) :
    Game.get_user_input stm pieceAt legal
        (Game.Ev.click r c :: Game.Ev.click r c :: evs) =
      ((Game.get_user_input stm pieceAt legal evs).1,
        Game.Eff.highlight r c :: Game.Eff.restore r c ::
          (Game.get_user_input stm pieceAt legal evs).2) := by
  simp [Game.get_user_input, Game.get_user_input_aux]

/-- C6 (code behavior at the failing input): `update_rook` itself resolves
each castling king move to the fixed rook relocation required by the claim,
but `update_board` invokes it with an extra `window` argument, so committing
a legal castling move such as e1g1 raises TypeError and emits no rook
relocation. -/
theorem c6_castling_rook_call_bug :
    Game.update_board_rook_call true "e1g1" =
      Except.error
        "TypeError: update_rook() takes 2 positional arguments but 3 were given" ∧
    Game.update_rook "e1g1" = some (7, 5, 10) ∧
    Game.update_rook "e1c1" = some (0, 3, 10) ∧
    Game.update_rook "e8g8" = some (63, 61, 4) ∧
    Game.update_rook "e8c8" = some (56, 59, 4) := by
  refine ⟨rfl, ?_, ?_, ?_, ?_⟩ <;> decide

/-- The rank table as a case split on the wrong-move counter. -/
theorem rank_of_cases (w : Nat) :
    Puzzle.rank_of w =
      (if w = 0 then "S" else if w = 1 then "A"
       else if w = 2 then "B" else "C") := by
  match w with
  | 0 => rfl
  | 1 => rfl
  | 2 => rfl
  | 3 => rfl
  | (n + 4) =>
    have h : 3 < n + 4 := by omega
    simp [Puzzle.rank_of, h]

/-- A first-try session: when the attempt stream is exactly the human's
scripted moves (plus unread extra input), every ply matches immediately. -/
theorem puzzle_run_first_try (script : List String) :
    ∀ (t : Bool) (extra : List String),
    Puzzle.puzzle_run t script (Puzzle.humanMoves t script ++ extra) =
      some ((Puzzle.humanMoves t script).length, 0, script, extra) := by
  induction script with
  | nil => intro t extra; simp [Puzzle.puzzle_run, Puzzle.humanMoves]
  | cons e rest ih =>
    intro t extra
    cases t with
    | true =>
      simp only [Puzzle.humanMoves, if_pos trivial, Bool.not_true]
      simp [Puzzle.puzzle_run, Puzzle.consume, ih false extra]
    | false =>
      simp only [Puzzle.humanMoves, Bool.not_false]
      simp [Puzzle.puzzle_run, ih true extra]

/-- C4: for every completed puzzle session the final rank is a function of
`wrongCount` alone — S for 0 wrong, A for 1, B for 2 and C for everything
at 3 and above — and a session in which every human ply matches the script
on the first try ends with `goodCount` equal to the number of human plies,
`wrongCount = 0` and rank S. -/
theorem c4_puzzle_rank (humanFirst : Bool) (script attempts : List String)
    (res : Puzzle.SessionResult)
    (hrun : Puzzle.session humanFirst script attempts = some res) :
    (res.rank = if res.wrong = 0 then "S" else if res.wrong = 1 then "A"
      else if res.wrong = 2 then "B" else "C") ∧
    (attempts = Puzzle.humanMoves humanFirst script →
      res.good = (Puzzle.humanMoves humanFirst script).length ∧
      res.wrong = 0 ∧ res.rank = "S") := by
  obtain ⟨r, hr, hres⟩ := Option.map_eq_some'.mp hrun
  constructor
  · rw [← hres]
    exact rank_of_cases r.2.1
  · intro hatt
    subst hatt
    have h := puzzle_run_first_try script humanFirst []
    rw [List.append_nil] at h
    rw [hr] at h
    obtain rfl := Option.some_injective _ h
    rw [← hres]
    exact ⟨rfl, rfl, rfl⟩

/-- Witness for C4: a three-ply script played perfectly. -/
theorem c4_witness :
    Puzzle.session true ["Qxf7", "Kxf7", "Ng5"] ["Qxf7", "Ng5"] =
      some ⟨2, 0, ["Qxf7", "Kxf7", "Ng5"], "S"⟩ ∧
    (⟨2, 0, ["Qxf7", "Kxf7", "Ng5"], "S"⟩ : Puzzle.SessionResult).rank =
      (if (⟨2, 0, ["Qxf7", "Kxf7", "Ng5"], "S"⟩ :
            Puzzle.SessionResult).wrong = 0 then "S"
       else if (⟨2, 0, ["Qxf7", "Kxf7", "Ng5"], "S"⟩ :
            Puzzle.SessionResult).wrong = 1 then "A"
       else if (⟨2, 0, ["Qxf7", "Kxf7", "Ng5"], "S"⟩ :
            Puzzle.SessionResult).wrong = 2 then "B" else "C") :=
  ⟨by decide,
    (c4_puzzle_rank true ["Qxf7", "Kxf7", "Ng5"] ["Qxf7", "Ng5"]
      ⟨2, 0, ["Qxf7", "Kxf7", "Ng5"], "S"⟩ (by decide)).1⟩

/-- Unfolding of `puzzle_run` at a human ply. -/
theorem puzzle_run_cons_human (e : String) (rest attempts : List String) :
    Puzzle.puzzle_run true (e :: rest) attempts =
      (match Puzzle.consume e attempts with
       | none => none
       | some (rem, w) =>
         (Puzzle.puzzle_run false rest rem).map
           (fun r => (r.1 + 1, w + r.2.1, e :: r.2.2.1, r.2.2.2))) := by
  rw [Puzzle.puzzle_run]
  simp

/-- Unfolding of `puzzle_run` at a scripted ply. -/
theorem puzzle_run_cons_scripted (e : String) (rest attempts : List String) :
    Puzzle.puzzle_run false (e :: rest) attempts =
      (Puzzle.puzzle_run true rest attempts).map
        (fun r => (r.1, r.2.1, e :: r.2.2.1, r.2.2.2)) := by
  rw [Puzzle.puzzle_run]
  simp

/-- C8: at a human ply, a successful `consume` of the attempt stream splits
it into a (possibly empty) prefix of mismatched attempts — each of which
contributed exactly one increment to `wrongCount` and none of which matched
the expected move — followed by the matching attempt, with the script cursor
never advancing before the match; and over a whole session only scripted
moves are ever committed to the board (a mismatched move is never pushed). -/
theorem c8_mismatch_frame :
    (∀ (expected : String) (attempts rest : List String) (w : Nat),
      Puzzle.consume expected attempts = some (rest, w) →
      ∃ pre, attempts = pre ++ expected :: rest ∧ w = pre.length ∧
        ∀ a ∈ pre, a ≠ expected) ∧
    (∀ (t : Bool) (script attempts : List String) (g w : Nat)
      (comm rem : List String),
      Puzzle.puzzle_run t script attempts = some (g, w, comm, rem) →
      comm = script) := by
  constructor
  · intro expected attempts
    induction attempts with
    | nil => intro rest w h; simp [Puzzle.consume] at h
    | cons a tl ih =>
      intro rest w h
      by_cases ha : a = expected
      · rw [Puzzle.consume, if_pos ha] at h
        obtain ⟨rfl, rfl⟩ : tl = rest ∧ 0 = w := by
          simpa using h
        exact ⟨[], by simp [ha], rfl, by simp⟩
      · rw [Puzzle.consume, if_neg ha] at h
        obtain ⟨p, hc, heq⟩ := Option.map_eq_some'.mp h
        obtain ⟨pre, hsplit, hlen, hmis⟩ := ih p.1 p.2 hc
        have h1 : p.1 = rest := by
          have := congrArg Prod.fst heq
          simpa using this
        have h2 : p.2 + 1 = w := by
          have := congrArg Prod.snd heq
          simpa using this
        refine ⟨a :: pre, ?_, ?_, ?_⟩
        · rw [← h1]
          simp [hsplit]
        · rw [← h2, hlen]
          simp
        · intro x hx
          rcases List.mem_cons.mp hx with rfl | hx
          · exact ha
          · exact hmis x hx
  · intro t script
    induction script generalizing t with
    | nil =>
      intro attempts g w comm rem h
      rw [Puzzle.puzzle_run] at h
      simp at h
      exact h.2.2.1
    | cons e rest ih =>
      intro attempts g w comm rem h
      cases t with
      | true =>
        rw [puzzle_run_cons_human] at h
        rcases hc : Puzzle.consume e attempts with _ | p
        · rw [hc] at h
          simp at h
        · rw [hc] at h
          simp at h
          obtain ⟨a, b, c, d, hr, hg, hw, hcomm, hrem⟩ := h
          rw [← hcomm, ih false p.1 a b c d hr]
      | false =>
        rw [puzzle_run_cons_scripted] at h
        simp at h
        obtain ⟨a, b, c, d, hr, hg, hw, hcomm, hrem⟩ := h
        rw [← hcomm, ih true attempts a b c d hr]

/-- Witness for C8: two mismatches before the matching move, and a full
session whose committed moves are exactly the script. -/
theorem c8_witness :
    (∃ pre, ["a4", "h4", "e4"] = pre ++ "e4" :: ([] : List String) ∧
      (2 : Nat) = pre.length ∧ ∀ a ∈ pre, a ≠ "e4") ∧
    (["e4", "e5"] : List String) = ["e4", "e5"] :=
  ⟨c8_mismatch_frame.1 "e4" ["a4", "h4", "e4"] [] 2 (by decide),
    c8_mismatch_frame.2 true ["e4", "e5"] ["a4", "e4"] 1 1 ["e4", "e5"] []
      (by decide)⟩

/-- Pushing into a non-full heap preserves the selection invariant: no
element has ever been dropped while the heap was below the bound. -/
theorem inv_push (K : Int) (p h : List User.HE) (e : User.HE)
    (inv : User.HeapInv K p h) (hlt : (h.length : Int) < K) :
    User.HeapInv K (p ++ [e]) (List.orderedInsert User.heLe e h) := by
  obtain ⟨hs, hlen, hsub, hexcl⟩ := inv
  have hall : ∀ x ∈ p, x ∈ h := by
    intro x hx
    by_contra hxn
    have := (hexcl x hx hxn).1
    omega
  refine ⟨hs.orderedInsert e h, ?_, ?_, ?_⟩
  · rw [List.orderedInsert_length]
    push_cast
    omega
  · intro f hf
    rcases (List.mem_orderedInsert _).mp hf with rfl | hf
    · simp
    · exact List.mem_append_left _ (hsub f hf)
  · intro x hx hxn
    exfalso
    rcases List.mem_append.mp hx with hx | hx
    · exact hxn ((List.mem_orderedInsert _).mpr (Or.inr (hall x hx)))
    · have hxe : x = e := by simpa using hx
      exact hxn ((List.mem_orderedInsert _).mpr (Or.inl hxe))

/-- Replacing the heap minimum by a strictly higher-priority element
preserves the selection invariant. -/
theorem inv_replace (K : Int) (p t : List User.HE) (m e : User.HE)
    (inv : User.HeapInv K p (m :: t))
    (hfull : ¬ ((m :: t).length : Int) < K) (hgt : m.idx < e.idx) :
    User.HeapInv K (p ++ [e]) (List.orderedInsert User.heLe e t) := by
  obtain ⟨hs, hlen, hsub, hexcl⟩ := inv
  have hKfull : ((m :: t).length : Int) = K := le_antisymm hlen (not_lt.mp hfull)
  have ht1 : (t.length + 1 : Int) = K := by
    simpa using hKfull
  refine ⟨hs.of_cons.orderedInsert e t, ?_, ?_, ?_⟩
  · rw [List.orderedInsert_length]
    push_cast
    omega
  · intro f hf
    rcases (List.mem_orderedInsert _).mp hf with rfl | hf
    · simp
    · exact List.mem_append_left _ (hsub f (List.mem_cons_of_mem m hf))
  · intro x hx hxn
    have hxne : x ≠ e ∧ x ∉ t := by
      constructor
      · intro hxe
        exact hxn ((List.mem_orderedInsert _).mpr (Or.inl hxe))
      · intro hxt
        exact hxn ((List.mem_orderedInsert _).mpr (Or.inr hxt))
    refine ⟨?_, ?_⟩
    · rw [List.orderedInsert_length]
      push_cast
      omega
    · intro f hf
      rcases (List.mem_orderedInsert _).mp hf with hfe | hft
      · rw [hfe]
        rcases List.mem_append.mp hx with hx | hx
        · by_cases hxh : x ∈ m :: t
          · rcases List.mem_cons.mp hxh with hxm | hxt
            · rw [hxm]
              exact le_of_lt hgt
            · exact absurd hxt hxne.2
          · have := (hexcl x hx hxh).2 m (List.mem_cons_self m t)
            exact le_trans this (le_of_lt hgt)
        · have hxe : x = e := by simpa using hx
          exact absurd hxe hxne.1
      · rcases List.mem_append.mp hx with hx | hx
        · by_cases hxh : x ∈ m :: t
          · rcases List.mem_cons.mp hxh with hxm | hxt
            · rw [hxm]
              exact List.rel_of_sorted_cons hs f hft
            · exact absurd hxt hxne.2
          · exact (hexcl x hx hxh).2 f (List.mem_cons_of_mem m hft)
        · have hxe : x = e := by simpa using hx
          exact absurd hxe hxne.1

/-- Skipping an element no better than the heap minimum preserves the
selection invariant. -/
theorem inv_skip (K : Int) (p t : List User.HE) (m e : User.HE)
    (inv : User.HeapInv K p (m :: t))
    (hfull : ¬ ((m :: t).length : Int) < K) (hle : ¬ m.idx < e.idx) :
    User.HeapInv K (p ++ [e]) (m :: t) := by
  obtain ⟨hs, hlen, hsub, hexcl⟩ := inv
  have hKfull : ((m :: t).length : Int) = K := le_antisymm hlen (not_lt.mp hfull)
  refine ⟨hs, hlen, ?_, ?_⟩
  · intro f hf
    exact List.mem_append_left _ (hsub f hf)
  · intro x hx hxn
    rcases List.mem_append.mp hx with hx | hx
    · exact hexcl x hx hxn
    · have hxe : x = e := by simpa using hx
      subst hxe
      refine ⟨hKfull, ?_⟩
      intro f hf
      rcases List.mem_cons.mp hf with rfl | hf
      · exact not_lt.mp hle
      · exact le_trans (not_lt.mp hle) (List.rel_of_sorted_cons hs f hf)

/-- Running the top-K loop from an invariant state succeeds (for a positive
bound) and re-establishes the invariant over all visited elements. -/
theorem runHeap_inv (K : Int) (hK : 1 ≤ K) :
    ∀ (es p h : List User.HE), User.HeapInv K p h →
    ∃ sel, User.runHeap K es h = some sel ∧ User.HeapInv K (p ++ es) sel := by
  intro es
  induction es with
  | nil =>
    intro p h inv
    exact ⟨h, rfl, by simpa using inv⟩
  | cons e rest ih =>
    intro p h inv
    by_cases hlt : (h.length : Int) < K
    · obtain ⟨sel, hrun, hinv⟩ := ih (p ++ [e]) _ (inv_push K p h e inv hlt)
      refine ⟨sel, ?_, ?_⟩
      · simp only [User.runHeap, User.heap_step, if_pos hlt]
        exact hrun
      · simpa [List.append_assoc] using hinv
    · rcases h with _ | ⟨m, t⟩
      · exfalso
        simp at hlt
        omega
      · by_cases hgt : m.idx < e.idx
        · obtain ⟨sel, hrun, hinv⟩ :=
            ih (p ++ [e]) _ (inv_replace K p t m e inv hlt hgt)
          refine ⟨sel, ?_, ?_⟩
          · simp only [User.runHeap, User.heap_step, if_neg hlt, if_pos hgt]
            exact hrun
          · simpa [List.append_assoc] using hinv
        · obtain ⟨sel, hrun, hinv⟩ :=
            ih (p ++ [e]) _ (inv_skip K p t m e inv hlt hgt)
          refine ⟨sel, ?_, ?_⟩
          · simp only [User.runHeap, User.heap_step, if_neg hlt, if_neg hgt]
            exact hrun
          · simpa [List.append_assoc] using hinv

/-- Priority computation succeeds on every record whose stage is in
bounds. -/
theorem mkEntries_some (today : Int) :
    ∀ l : List (String × String × Int × Int),
    (∀ x ∈ l, 0 ≤ x.2.2.2 ∧ x.2.2.2 ≤ 6) →
    ∃ es, User.mkEntries today l = some es := by
  intro l
  induction l with
  | nil => intro _; exact ⟨[], rfl⟩
  | cons x tl ih =>
    intro hb
    obtain ⟨sec, item, days, stage⟩ := x
    have hst := hb _ (List.mem_cons_self _ _)
    have hmc : ∃ mc, User.memory_curve stage = some mc := by
      have h0 : 0 ≤ stage := by simpa using hst.1
      have h6 : stage ≤ 6 := by simpa using hst.2
      have hc : stage = 0 ∨ stage = 1 ∨ stage = 2 ∨ stage = 3 ∨ stage = 4 ∨
          stage = 5 ∨ stage = 6 := by omega
      rcases hc with rfl | rfl | rfl | rfl | rfl | rfl | rfl <;>
        simp [User.memory_curve]
    obtain ⟨mc, hmc⟩ := hmc
    obtain ⟨es, hes⟩ := ih (fun y hy => hb y (List.mem_cons_of_mem _ hy))
    refine ⟨⟨-1000 * mc + (today - days), sec, item⟩ :: es, ?_⟩
    simp [User.mkEntries, hmc, hes]

/-- The stage invariant transfers to the flattened record list. -/
theorem flatten_stage_bounds {st : User.Store} (hOK : User.stagesOK st) :
    ∀ x ∈ User.flatten st, 0 ≤ x.2.2.2 ∧ x.2.2.2 ≤ 6 := by
  intro x hx
  simp only [User.flatten, List.mem_flatMap] at hx
  obtain ⟨s, hs, hx⟩ := hx
  simp only [List.mem_map] at hx
  obtain ⟨kv, hkv, rfl⟩ := hx
  simpa using hOK s hs kv hkv

/-- C2 (amended: bound at least 1): for a record store whose stages are all
in [0,6] and a bound K ≥ 1, `get_review_items` returns a list of at most K
`(section, item)` pairs — the payloads of a selection `sel` of the visited
priority entries, reversed so priorities run from highest to lowest — and
every visited entry left unselected has priority at most that of every
selected entry. -/
theorem c2_get_review_items_topK (st : User.Store) (today K : Int)
    (hOK : User.stagesOK st) (hK : 1 ≤ K) :
    ∃ es sel res,
      User.mkEntries today (User.flatten st) = some es ∧
      User.runHeap K es [] = some sel ∧
      User.get_review_items st today K = some res ∧
      res = (sel.map (fun e => (e.sec, e.item))).reverse ∧
      (res.length : Int) ≤ K ∧
      List.Sorted (fun a b : User.HE => b.idx ≤ a.idx) sel.reverse ∧
      (∀ f ∈ sel, f ∈ es) ∧
      (∀ e ∈ es, e ∉ sel → ∀ f ∈ sel, e.idx ≤ f.idx) := by
  obtain ⟨es, hes⟩ :=
    mkEntries_some today (User.flatten st) (flatten_stage_bounds hOK)
  have inv0 : User.HeapInv K [] [] := by
    refine ⟨List.sorted_nil, ?_, by simp, by simp⟩
    simp
    omega
  obtain ⟨sel, hrun, hinv⟩ := runHeap_inv K hK es [] [] inv0
  obtain ⟨hs, hlen, hsub, hexcl⟩ := hinv
  refine ⟨es, sel, _, hes, hrun, ?_, rfl, ?_, ?_, ?_, ?_⟩
  · simp only [User.get_review_items, hes, hrun]
  · simpa using hlen
  · rw [List.Sorted, List.pairwise_reverse]
    exact hs
  · intro f hf
    simpa using hsub f hf
  · intro e he hen f hf
    exact (hexcl e (by simpa using he) hen).2 f hf

/-- Counterexample to C2 as stated for every bound: with bound K = 0 and a
nonempty store, the first loop iteration takes the `elif` branch and
evaluates `review_items[0][0]` on the empty heap — Python raises IndexError
— so no list at all is returned. -/
theorem c2_zero_bound_counterexample :
    ¬ ∃ l, User.get_review_items [("A", [("1", (0, 0))])] 0 0 = some l := by
  intro hl
  obtain ⟨l, hl⟩ := hl
  have h : User.get_review_items [("A", [("1", (0, 0))])] 0 0 = none := by
    decide
  rw [h] at hl
  exact Option.noConfusion hl

/-- Witness for C2 (amended): a one-record store with bound 1. -/
theorem c2_witness :
    (User.stagesOK [("A", [("1", (0, 0))])] ∧ (1 : Int) ≤ 1) ∧
    (∃ es sel res,
      User.mkEntries 5 (User.flatten [("A", [("1", (0, 0))])]) = some es ∧
      User.runHeap 1 es [] = some sel ∧
      User.get_review_items [("A", [("1", (0, 0))])] 5 1 = some res ∧
      res = (sel.map (fun e => (e.sec, e.item))).reverse ∧
      (res.length : Int) ≤ 1 ∧
      List.Sorted (fun a b : User.HE => b.idx ≤ a.idx) sel.reverse ∧
      (∀ f ∈ sel, f ∈ es) ∧
      (∀ e ∈ es, e ∉ sel → ∀ f ∈ sel, e.idx ≤ f.idx)) :=
  ⟨⟨by decide, by decide⟩,
    c2_get_review_items_topK [("A", [("1", (0, 0))])] 5 1 (by decide)
      (by decide)⟩
